import Mathlib

/-!
# Nova voice assistant — verification of the command-resolution pipeline

Shallow embedding of the pure text-processing core of the Nova local voice
assistant (`mainv3.py`, with the shared helpers also present in `mainv4.py`):

* `normalize`, `apply_confusions` — transcript normalisation and
  ASR-confusion correction (`re.sub(rf"\b{k}\b", v, t)` applied over the
  confusion table sorted longest-key-first, followed by whitespace
  re-collapse and strip);
* `fuzzy_wake` and wake-word stripping — the wake phrases are regexes of
  the form `\bw1\s+w2\b`, searched / removed case-insensitively;
* `resolve_name_fuzzy` — exact alias lookup, exact registry membership,
  then `difflib.get_close_matches(n, choices, n=1, cutoff=0.7)`, which is
  embedded including `SequenceMatcher`'s recursive longest-matching-block
  decomposition (`ratio`), the `quick_ratio` / `real_quick_ratio`
  pre-filters, and `heapq.nlargest` tuple ordering;
* the intent patterns, `Nova._gate_intent` and `Nova.on_final` — the
  router, modelled as a state-and-effect transition function;
* `Listener.start` — the sample-rate fallback loop, modelled over an
  oracle saying which rates open successfully.

Python `float` scores are embedded as exact rationals (`ℚ`).  For the
string lengths arising in every concrete statement below the rounded
`float` comparisons of `difflib` agree with the exact rational ones, since
all ratios involved are rationals with small denominators, far (relative
to one ulp) from the cutoff `0.7`.

Functions that consume more than one character per step take an explicit
fuel argument, always instantiated with the length of the scanned list;
each step consumes at least one character, so the fuel never runs out
(the `fuel = 0` branches are unreachable at the wrappers' instantiation).
-/

set_option maxRecDepth 100000

namespace Nova

/-! ## Character classes (Python `\s`, `\w` on the ASCII inputs in scope) -/

/-- Python `\s` (ASCII): space, tab, newline, carriage return, vertical tab,
form feed. -/
def pyIsSpace (c : Char) : Bool :=
  c = ' ' || c = '\t' || c = '\n' || c = '\r' || c = '\x0b' || c = '\x0c'

/-- Python `\w` (ASCII): letters, digits, underscore. -/
def isWordChar (c : Char) : Bool :=
  c.isAlphanum || c = '_'

/-- `\b` to the left of a literal `k`: the wordness of the preceding
character must differ from that of `k`'s first character.  `prevW` is the
wordness of the preceding character (`false` at the start of the string:
`\b` treats the string edge as non-word). -/
def leftB (prevW : Bool) (k : List Char) : Bool :=
  match k.head? with
  | none => false
  | some c => prevW != isWordChar c

/-- `\b` to the right of a literal `k`: the wordness of `k`'s last
character must differ from that of the following character (string end
counts as non-word). -/
def rightB (k : List Char) (rest : List Char) : Bool :=
  match k.getLast? with
  | none => false
  | some c =>
      isWordChar c != (match rest.head? with
                       | none => false
                       | some d => isWordChar d)

/-! ## Python string helpers: `.strip()`, `.lower()`, `re.sub(r"\s+", " ", ·)` -/

/-- Remove a maximal all-whitespace suffix (the tail half of `str.strip()`). -/
def dropEndSpace : List Char → List Char
  | [] => []
  | c :: l =>
      let r := dropEndSpace l
      if r.isEmpty && pyIsSpace c then [] else c :: r

/-- Python `str.strip()` on a character list. -/
def pyStripL (l : List Char) : List Char :=
  dropEndSpace (l.dropWhile pyIsSpace)

/-- Python `str.strip()`. -/
def pyStrip (s : String) : String :=
  (pyStripL s.data).asString

/-- `re.sub(r"\s+", " ", t)`, scanning with a flag that records whether the
previous character was whitespace: the first character of each whitespace
run becomes a single `' '` and the rest of the run is skipped. -/
def collapseWSAux : Bool → List Char → List Char
  | _, [] => []
  | inRun, c :: l =>
      if pyIsSpace c then
        if inRun then collapseWSAux true l else ' ' :: collapseWSAux true l
      else c :: collapseWSAux false l

/-- Python `re.sub(r"\s+", " ", t)`: every whitespace run becomes one space. -/
def collapseWS (l : List Char) : List Char :=
  collapseWSAux false l

/-- Python `str.lower()` (character-wise; the inputs in scope are ASCII). -/
def strLowerL (l : List Char) : List Char :=
  l.map Char.toLower

/-- `normalize` from the source: `t.lower().strip()` then
`re.sub(r"\s+", " ", t)`. -/
def normalize (t : String) : String :=
  (collapseWS (pyStripL (strLowerL t.data))).asString

/-! ## Whole-word substitution: `re.sub(rf"\b{re.escape(k)}\b", v, t)`

`re.sub` scans the subject left to right, replacing non-overlapping
matches; boundary conditions are evaluated on the original text, so after
a replacement the scan resumes just past the matched text, with the
"previous character" being the last character of the *matched key*. -/

/-- Whether `rf"\b{k}\b"` matches at the current position. -/
def wordHere (prevW : Bool) (k t : List Char) : Bool :=
  !k.isEmpty && leftB prevW k && k.isPrefixOf t && rightB k (t.drop k.length)

/-- One pass of `re.sub(rf"\b{k}\b", v, t)` (fuel-indexed; each step
consumes at least one character of `t`). -/
def subWF (k v : List Char) : Nat → Bool → List Char → List Char
  | 0, _, t => t
  | _ + 1, _, [] => []
  | fuel + 1, prevW, c :: rest =>
      if wordHere prevW k (c :: rest) then
        v ++ subWF k v fuel (isWordChar (k.getLastD ' ')) ((c :: rest).drop k.length)
      else
        c :: subWF k v fuel (isWordChar c) rest

/-- `re.sub(rf"\b{re.escape(k)}\b", v, t)` on character lists. -/
def subW (k v t : List Char) : List Char :=
  subWF k v t.length false t

/-- Whether `re.search(rf"\b{k}\b", t)` finds a match, scanning all
positions with the same boundary conventions as `subWF`. -/
def hasW (k : List Char) (prevW : Bool) : List Char → Bool
  | [] => false
  | c :: rest => wordHere prevW k (c :: rest) || hasW k (isWordChar c) rest

/-! ## The static tables of `mainv3.py` -/

/-- `CONFUSIONS` of `mainv3.py`, in dict insertion order. -/
def CONFUSIONS : List (String × String) :=
  [ ("grown", "chrome")
  , ("goal", "chrome")
  , ("rome", "chrome")
  , ("googly", "google")
  , ("googling", "google")
  , ("googling.", "google")
  , ("goole", "google")
  , ("orban", "open")
  , ("old when", "open")
  , ("oh been", "open")
  , ("been", "open")
  , ("or been", "open")
  , ("or but", "open")
  , ("opening", "open")
  , ("open will", "open")
  , ("open book", "open")
  , ("open building", "open")
  , ("open braille", "open chrome")
  , ("open ravi", "open chrome")
  , ("open robbie", "open chrome")
  , ("open bully", "open")
  , ("blows", "close")
  , ("i think", "")
  , ("that", "")
  , ("it's", "")
  , ("video", "")
  , ("while you are", "") ]

/-- `CONFUSIONS` of `mainv4.py`, in dict insertion order. -/
def CONFUSIONS_V4 : List (String × String) :=
  [ ("grow", "chrome")
  , ("goal", "chrome")
  , ("rome", "chrome")
  , ("googly", "google")
  , ("googling", "google")
  , ("blows", "close") ]

/-- Stable insertion of a pair into a list kept sorted by decreasing key
length: the new element goes after all entries whose key is at least as
long, so the whole sort is stable, like Python's
`sorted(keys, key=len, reverse=True)`. -/
def insertDesc (p : String × String) : List (String × String) → List (String × String)
  | [] => [p]
  | q :: l => if p.1.length ≤ q.1.length then q :: insertDesc p l else p :: q :: l

/-- Stable sort by decreasing key length
(`sorted(CONFUSIONS.keys(), key=len, reverse=True)`, keeping the values
alongside). -/
def sortKeysDesc (l : List (String × String)) : List (String × String) :=
  l.foldl (fun acc p => insertDesc p acc) []

/-- One confusion entry applied to the working text
(`t = re.sub(rf"\b{re.escape(k)}\b", CONFUSIONS[k], t)`). -/
def applyConfStep (s : List Char) (kv : String × String) : List Char :=
  subW kv.1.data kv.2.data s

/-- `apply_confusions`, parameterised by the confusion table: replace
longer keys first, then `re.sub(r"\s+", " ", t).strip()`. -/
def applyConfusionsWith (tbl : List (String × String)) (t : String) : String :=
  (pyStripL (collapseWS ((sortKeysDesc tbl).foldl applyConfStep t.data))).asString

/-- `apply_confusions` of `mainv3.py` (the table the program loads). -/
def apply_confusions (t : String) : String :=
  applyConfusionsWith CONFUSIONS t

/-- `apply_confusions` of `mainv4.py`. -/
def apply_confusions_v4 (t : String) : String :=
  applyConfusionsWith CONFUSIONS_V4 t

/-! ## Wake words: `WAKE_WORDS = [r"\bhey\s+nova\b", ...]`

Each wake pattern has the shape `\b w1 \s+ w2 \b`.  `fuzzy_wake` lowercases
and `re.search`es; `on_final` also removes every match
(`re.sub(pat, "", clean, flags=re.IGNORECASE).strip()`, one pattern at a
time).  All subject strings reaching these calls are already lowercase
(they went through `normalize`), so literal lowercase matching is exact. -/

/-- The four wake patterns, as (first word, second word) pairs. -/
def WAKE_WORDS : List (List Char × List Char) :=
  [ ("hey".data, "nova".data)
  , ("hello".data, "nova".data)
  , ("hey".data, "noah".data)
  , ("hey".data, "novaa".data) ]

/-- If `\b w1 \s+ w2 \b` matches at the current position, return the
length of the matched text (the left boundary is checked by the caller).
`\s+` is greedy; since `w2` starts with a non-space character only the
full whitespace run can precede it. -/
def twoWordHere (w1 w2 t : List Char) : Option Nat :=
  if w1.isPrefixOf t then
    let r := t.drop w1.length
    let spn := (r.takeWhile pyIsSpace).length
    let r2 := r.drop spn
    if 0 < spn && w2.isPrefixOf r2 && rightB w2 (r2.drop w2.length) then
      some (w1.length + spn + w2.length)
    else none
  else none

/-- `re.search(rf"\b{w1}\s+{w2}\b", t)`, scanning every position. -/
def searchTW (w1 w2 : List Char) (prevW : Bool) : List Char → Bool
  | [] => false
  | c :: rest =>
      (leftB prevW w1 && (twoWordHere w1 w2 (c :: rest)).isSome) ||
      searchTW w1 w2 (isWordChar c) rest

/-- `fuzzy_wake` from the source: lowercase, then search every wake
pattern. -/
def fuzzy_wake (t : String) : Bool :=
  WAKE_WORDS.any fun p => searchTW p.1 p.2 false (strLowerL t.data)

/-- `re.sub(rf"\b{w1}\s+{w2}\b", "", t)` (fuel-indexed; each step consumes
at least one character — a match consumes `w1`, at least one space, and
`w2`). -/
def subTWF (w1 w2 : List Char) : Nat → Bool → List Char → List Char
  | 0, _, t => t
  | _ + 1, _, [] => []
  | fuel + 1, prevW, c :: rest =>
      if leftB prevW w1 then
        match twoWordHere w1 w2 (c :: rest) with
        | some len =>
            subTWF w1 w2 fuel (isWordChar (w2.getLastD ' ')) ((c :: rest).drop len)
        | none => c :: subTWF w1 w2 fuel (isWordChar c) rest
      else c :: subTWF w1 w2 fuel (isWordChar c) rest

/-- `re.sub(rf"\b{w1}\s+{w2}\b", "", t)` on character lists. -/
def subTW (w1 w2 t : List Char) : List Char :=
  subTWF w1 w2 t.length false t

/-- The wake-word stripping loop of `on_final`:
`for pat in WAKE_WORDS: clean = re.sub(pat, "", clean, flags=re.IGNORECASE).strip()`. -/
def stripWakeL (t : List Char) : List Char :=
  WAKE_WORDS.foldl (fun s p => pyStripL (subTW p.1 p.2 s)) t

/-! ## `difflib.SequenceMatcher` (no junk: `isjunk=None`, and `autojunk`
is inert because every subject here is far shorter than 200 characters)

`ratio()` is `2*M/T` where `T = len(a)+len(b)` and `M` is the total size
of the matching blocks: `find_longest_match` finds the longest common
contiguous block — ties resolved towards the earliest position in `a`,
then the earliest in `b` (the scan keeps the first block reaching the
maximal size; ends and starts are ordered alike for blocks of equal
size) — and `get_matching_blocks` recurses on the pieces to the left and
to the right of that block. -/

/-- Length of the longest common prefix of two lists. -/
def runLen : List Char → List Char → Nat
  | x :: xs, y :: ys => if x = y then runLen xs ys + 1 else 0
  | _, _ => 0

/-- All candidate blocks `(runLen at (i, j), i, j)`, scanned in the order
`i` ascending then `j` ascending — the order of Python's DP loop. -/
def cands (a b : List Char) : List (Nat × Nat × Nat) :=
  (List.range a.length).flatMap fun i =>
    (List.range b.length).map fun j => (runLen (a.drop i) (b.drop j), i, j)

/-- Keep the first candidate of maximal block length (strict improvement
only, like `if k > bestsize` in `find_longest_match`). -/
def pickCand : (Nat × Nat × Nat) → List (Nat × Nat × Nat) → Nat × Nat × Nat
  | best, [] => best
  | best, c :: l => pickCand (if best.1 < c.1 then c else best) l

/-- `find_longest_match` over the whole of `a` and `b`:
`(size, start in a, start in b)`, `(0, 0, 0)` if there is no common
character. -/
def findBest (a b : List Char) : Nat × Nat × Nat :=
  pickCand (0, 0, 0) (cands a b)

/-- Total size of the matching blocks (fuel-indexed; the two recursive
calls are on strictly smaller `length a + length b`). -/
def matchTotalF : Nat → List Char → List Char → Nat
  | 0, _, _ => 0
  | fuel + 1, a, b =>
      let c := findBest a b
      if c.1 = 0 then 0
      else
        matchTotalF fuel (a.take c.2.1) (b.take c.2.2) + c.1 +
        matchTotalF fuel (a.drop (c.2.1 + c.1)) (b.drop (c.2.2 + c.1))

/-- `M`: the total matched size underlying `SequenceMatcher.ratio()`. -/
def matchTotal (a b : List Char) : Nat :=
  matchTotalF (a.length + b.length) a b

/-- The multiset-intersection size underlying `quick_ratio()`
(`sum(min(count_a(c), count_b(c)))`, via `List.bagInter`). -/
def interCount (a b : List Char) : Nat :=
  (a.bagInter b).length

/-!
Ratios are rationals `2*m/t` with `t = len(a) + len(b) > 0` whenever a
registry key is scored (keys are non-empty).  We compare them exactly, by
cross-multiplication over `ℕ`:
`2*m₁/t₁ ≤ 2*m₂/t₂ ↔ m₁*t₂ ≤ m₂*t₁` and
`2*m/t ≥ 7/10 ↔ 7*t ≤ 20*m`. -/

/-- A similarity score: the pair `(m, t)` standing for the rational
`2*m/t`. -/
abbrev Score := Nat × Nat

/-- `2*m/t ≥ 0.7`, by cross-multiplication. -/
def cutoffLe (s : Score) : Bool :=
  7 * s.2 ≤ 20 * s.1

/-- `2*m₁/t₁ < 2*m₂/t₂`, by cross-multiplication. -/
def scoreLt (p q : Score) : Bool :=
  p.1 * q.2 < q.1 * p.2

/-- `2*m₁/t₁ = 2*m₂/t₂`, by cross-multiplication. -/
def scoreEqB (p q : Score) : Bool :=
  p.1 * q.2 = q.1 * p.2

/-- `SequenceMatcher.ratio()` of `a = x`, `b = word`: the rational
`2*M/T` as a `Score`. -/
def ratioS (a b : List Char) : Score :=
  (matchTotal a b, a.length + b.length)

/-- `SequenceMatcher.quick_ratio()` as a `Score`. -/
def quickRatioS (a b : List Char) : Score :=
  (interCount a b, a.length + b.length)

/-- `SequenceMatcher.real_quick_ratio()` as a `Score`. -/
def realQuickRatioS (a b : List Char) : Score :=
  (min a.length b.length, a.length + b.length)

/-- The filter of `get_close_matches`: `real_quick_ratio() >= cutoff and
quick_ratio() >= cutoff and ratio() >= cutoff`, with `a = x` (a choice)
and `b = word` and `cutoff = 0.7`. -/
def qualifies (x word : List Char) : Bool :=
  cutoffLe (realQuickRatioS x word) &&
  cutoffLe (quickRatioS x word) &&
  cutoffLe (ratioS x word)

/-- Python string `<`: lexicographic comparison of code points. -/
def lexLt : List Char → List Char → Bool
  | [], [] => false
  | [], _ :: _ => true
  | _ :: _, [] => false
  | c :: cs, d :: ds => if c = d then lexLt cs ds else decide (c < d)

/-- Python tuple comparison on `(score, string)` pairs: strictly smaller
score, or equal score and strictly smaller string. -/
def tupleLt (p q : Score × String) : Bool :=
  scoreLt p.1 q.1 || (scoreEqB p.1 q.1 && lexLt p.2.data q.2.data)

/-- `heapq.nlargest(1, result)` on `(score, string)` pairs: the maximum
under the lexicographic tuple order (score first, then the string, as in
Python tuple comparison); on fully equal tuples the earlier one is kept
(`nlargest` is documented as `sorted(iterable, reverse=True)[:n]`, and
`sorted` is stable). -/
def bestPair : List (Score × String) → Option (Score × String)
  | [] => none
  | p :: l =>
      match bestPair l with
      | none => some p
      | some q => if tupleLt p q then some q else some p

/-- The scored, filtered pair list built by `get_close_matches(word,
possibilities, ...)`, in `possibilities` order. -/
def qualPairs (word : String) (possibilities : List String) : List (Score × String) :=
  (possibilities.filter fun x => qualifies x.data word.data).map
    fun x => (ratioS x.data word.data, x)

/-- `difflib.get_close_matches(word, possibilities, n=1, cutoff=0.7)`,
returning the single best match if any. -/
def getCloseMatches1 (word : String) (possibilities : List String) : Option String :=
  (bestPair (qualPairs word possibilities)).map (·.2)

/-- First-match association-list lookup (Python dict lookup; the dicts in
scope have distinct keys). -/
def lookupAssoc (al : List (String × String)) (k : String) : Option String :=
  match al with
  | [] => none
  | (k', v) :: l => if k = k' then some v else lookupAssoc l k

/-- The first two lines of `resolve_name_fuzzy`:
`n = name.strip().lower()`, then
`if extra_alias and n in extra_alias: n = extra_alias[n]`. -/
def resolveNorm (name : String) (al : List (String × String)) : String :=
  let n := (strLowerL (pyStripL name.data)).asString
  (lookupAssoc al n).getD n

/-- `resolve_name_fuzzy` from the source. -/
def resolve_name_fuzzy (name : String) (choices : List String)
    (al : List (String × String)) : Option String :=
  let n := resolveNorm name al
  if n ∈ choices then some n
  else getCloseMatches1 n choices

/-! ## Registries and aliases of `mainv3.py` -/

/-- `list(APP_PATHS.keys())`, in dict insertion order. -/
def APP_KEYS : List String :=
  ["chrome", "edge", "brave", "vscode", "notepad", "spotify", "calculator"]

/-- `list(WEBSITES.keys())`, in dict insertion order. -/
def SITE_KEYS : List String :=
  ["google", "youtube", "gmail", "google drive", "drive", "chatgpt", "github",
   "stackoverflow"]

/-- `APP_ALIASES`. -/
def APP_ALIASES : List (String × String) :=
  [("google", "chrome"), ("visual studio code", "vscode"), ("code", "vscode"),
   ("bad", "notepad")]

/-- `SITE_ALIASES`. -/
def SITE_ALIASES : List (String × String) :=
  [("yt", "youtube"), ("you", "youtube"), ("you tube", "youtube"),
   ("g mail", "gmail"), ("mail", "gmail"), ("drive", "google drive"),
   ("good", "github")]

/-! ## Intent patterns

The source's anchored regexes (`re.match`, with a final `$`):
`OPEN_APP_PAT = ^(open|launch|start)\s+(.+)$`,
`OPEN_SITE_PAT = ^(open)\s+(.+)$`,
`SEARCH_PAT = ^(search for|google|lookup)\s+(.+)$`,
`CLOSE_PAT = ^(close)\s+(.+)$`,
`TIME_PAT = ^(what\s+time\s+is\s+it|time)$`, and the fixed-phrase volume /
mute / screenshot patterns, which contain no `\s+` and are just literal
alternatives. -/

/-- `\s+(.+)$` after a matched verb: at least one whitespace character,
then a non-empty remainder.  `\s+` is greedy; if everything after the
verb is whitespace it backtracks one character so that `(.+)` can match
the final whitespace character. -/
def splitRest (r : List Char) : Option (List Char) :=
  let spn := (r.takeWhile pyIsSpace).length
  let rem := r.drop spn
  if spn = 0 then none
  else if !rem.isEmpty then some rem
  else if 2 ≤ spn then some [r.getLastD ' ']
  else none

/-- `re.match(r"^(v₁|v₂|…)\s+(.+)$", t)`: try the alternatives in order;
an alternative contributes a match iff it is a literal prefix of `t` and
the rest of the pattern matches what follows.  Returns group 2. -/
def cmdRemainder (verbs : List String) (t : String) : Option String :=
  match verbs with
  | [] => none
  | v :: vs =>
      if v.data.isPrefixOf t.data then
        match splitRest (t.data.drop v.length) with
        | some rem => some rem.asString
        | none => cmdRemainder vs t
      else cmdRemainder vs t

/-- `^w₁\s+w₂\s+…\s+wₙ$`: the words in sequence, separated by whitespace
runs, spanning the whole string. -/
def seqWS : List String → List Char → Bool
  | [], r => r.isEmpty
  | [w], r => w.data.isPrefixOf r && (r.drop w.length).isEmpty
  | w :: w' :: ws, r =>
      w.data.isPrefixOf r &&
      (let r2 := r.drop w.length
       let spn := (r2.takeWhile pyIsSpace).length
       0 < spn && seqWS (w' :: ws) (r2.drop spn))

/-- `TIME_PAT.match(t)`: `^(what\s+time\s+is\s+it|time)$`. -/
def timePat (t : String) : Bool :=
  seqWS ["what", "time", "is", "it"] t.data || t = "time"

/-- The observable outcome of processing one final transcript: which
collaborator call (announcement / OS action) the pipeline dispatches.
`ignored` means the event was dropped with no side effect. -/
inductive Effect where
  | ignored : Effect
  | sayReady : Effect
  | webSearch (q : String) : Effect
  | closeForeground : Effect
  | openAppOk (key : String) : Effect
  | openAppNotFound (target : String) : Effect
  | openSiteOk (key : String) : Effect
  | openSiteNotFound (target : String) : Effect
  | tellTime : Effect
  | volumeUp : Effect
  | volumeDown : Effect
  | muteAll : Effect
  | screenshotTaken : Effect
  deriving DecidableEq, Repr

/-- The part of the string before the first occurrence of `sep`
(`phrase.split(sep)[0]`; the whole string if `sep` does not occur). -/
def splitFirstOn (sep : List Char) : List Char → List Char
  | [] => []
  | c :: l => if sep.isPrefixOf (c :: l) then [] else c :: splitFirstOn sep l

/-- `Executor.open_app`: trim `" for "` / `" on "` qualifier clauses,
apply `APP_ALIASES`, resolve fuzzily against the app registry. -/
def executorOpenApp (phrase : String) : Effect :=
  let target :=
    (pyStripL (splitFirstOn " on ".data (splitFirstOn " for ".data phrase.data))).asString
  let key := (lookupAssoc APP_ALIASES target).getD target
  match resolve_name_fuzzy key APP_KEYS APP_ALIASES with
  | none => .openAppNotFound target
  | some choice => .openAppOk choice

/-- `Executor.open_site`: apply `SITE_ALIASES`, resolve fuzzily against
the site registry; on failure fall back to a web search when the target
starts with `"google "`. -/
def executorOpenSite (phrase : String) : Effect :=
  let t0 := pyStrip phrase
  let target := (lookupAssoc SITE_ALIASES t0).getD t0
  match resolve_name_fuzzy target SITE_KEYS SITE_ALIASES with
  | none =>
      if "google ".data.isPrefixOf target.data then
        .webSearch (target.data.drop 7).asString
      else .openSiteNotFound target
  | some choice => .openSiteOk choice

/-- The intent-routing chain of `Nova.on_final` (everything after the
gate): the ordered `if/elif` ladder over the patterns, with the final
`"google "` fallback. -/
def route (clean : String) : Effect :=
  match cmdRemainder ["search for", "google", "lookup"] clean with
  | some q => .webSearch q
  | none =>
  match cmdRemainder ["close"] clean with
  | some _ => .closeForeground
  | none =>
  match cmdRemainder ["open", "launch", "start"] clean with
  | some p => executorOpenApp p
  | none =>
  match cmdRemainder ["open"] clean with
  | some p => executorOpenSite p
  | none =>
  if timePat clean then .tellTime
  else if clean = "volume up" || clean = "increase volume" then .volumeUp
  else if clean = "volume down" || clean = "decrease volume" then .volumeDown
  else if clean = "mute" || clean = "mute volume" then .muteAll
  else if clean = "take a screenshot" || clean = "screenshot" then .screenshotTaken
  else if "google ".data.isPrefixOf clean.data then
    .webSearch (clean.data.drop 7).asString
  else .ignored

/-- The hard-coded verb set of `Nova._gate_intent`. -/
def GATE_VERBS : List String :=
  ["open", "search", "google", "lookup", "close", "time", "what"]

/-- `Nova._gate_intent`: the token before the first `' '`
(`text.split(" ")[0]`) must be in the hard-coded verb set. -/
def gate_intent (t : String) : Bool :=
  (t.data.takeWhile (fun c => c ≠ ' ')).asString ∈ GATE_VERBS

/-- The mutable session state of `Nova`: `awake` and the `--bypass-wake`
configuration. -/
structure NovaState where
  awake : Bool
  bypass_wake : Bool
  deriving DecidableEq, Repr

/-- The cleaned command text computed by `Nova.on_final` while awake:
confusion correction followed by wake-word stripping. -/
def cleanOf (t : String) : String :=
  (stripWakeL (apply_confusions t).data).asString

/-- `Nova.on_final`, as a transition function on the session state,
returning the dispatched effect.  Mirrors the source's early returns:
empty text, the asleep branch, empty cleaned text, and the intent gate
all return before the trailing `self.awake = self.bypass_wake`. -/
def onFinal (st : NovaState) (text : String) : NovaState × Effect :=
  let t := normalize text
  if t = "" then (st, .ignored)
  else if st.awake = false then
    if fuzzy_wake t then ({ st with awake := true }, .sayReady)
    else (st, .ignored)
  else
    let clean := cleanOf t
    if clean = "" then (st, .ignored)
    else if gate_intent clean = false then (st, .ignored)
    else ({ st with awake := st.bypass_wake }, route clean)

/-! ## `Listener.start`: the sample-rate fallback loop -/

/-- The candidate sample rates, in the order the source tries them. -/
def CANDIDATE_RATES : List Nat := [16000, 44100, 48000]

/-- The body of `Listener.start` over an oracle `opens` telling which
rates the capture device accepts: returns the chosen rate (`none` models
the trailing `raise RuntimeError`, i.e. `DeviceUnavailable`) together
with the list of rates actually attempted, in order. -/
def listenerStartGo (opens : Nat → Bool) : List Nat → Option Nat × List Nat
  | [] => (none, [])
  | r :: rs =>
      if opens r then (some r, [r])
      else
        let p := listenerStartGo opens rs
        (p.1, r :: p.2)

/-- `Listener.start` (`mainv3.py` and `mainv2.py`): try 16000, 44100,
48000 in order, use the first that opens, raise if all fail. -/
def listenerStart (opens : Nat → Bool) : Option Nat × List Nat :=
  listenerStartGo opens CANDIDATE_RATES

/-- Whitespace-canonical texts: every whitespace character is a plain
`' '` and is not immediately followed by another whitespace character.
The image of `re.sub(r"\s+", " ", ·)` always satisfies this, and on such
texts the substitution (and, absent boundary whitespace, `strip`) is the
identity — the key facts behind re-collapse idempotence. -/
def tidyWS : List Char → Bool
  | [] => true
  | c :: l =>
      (if pyIsSpace c then
        decide (c = ' ') && (match l with | [] => true | d :: _ => !pyIsSpace d)
       else true)
      && tidyWS l

/-! ## Helper lemmas -/

/-- A result of `bestPair` is an element of the scanned list. -/
theorem bestPair_mem : ∀ {l : List (Score × String)} {b : Score × String},
    bestPair l = some b → b ∈ l := by
  intro l
  induction l with
  | nil => intro b h; simp [bestPair] at h
  | cons p rest ih =>
      intro b h
      simp only [bestPair] at h
      cases hr : bestPair rest with
      | none => rw [hr] at h; dsimp only at h; cases h; exact List.mem_cons_self p rest
      | some q =>
          rw [hr] at h
          dsimp only at h
          by_cases hc : tupleLt p q = true
          · rw [if_pos hc] at h
            cases h
            exact List.mem_cons_of_mem p (ih hr)
          · rw [if_neg hc] at h
            cases h
            exact List.mem_cons_self p rest

theorem lexLt_irrefl : ∀ a : List Char, lexLt a a = false
  | [] => rfl
  | c :: l => by simp [lexLt, lexLt_irrefl l]

theorem lexLt_asymm : ∀ {a b : List Char}, lexLt a b = true → lexLt b a = false
  | [], [], h => by simpa [lexLt] using h
  | [], _ :: _, _ => by simp [lexLt]
  | _ :: _, [], h => by simpa [lexLt] using h
  | c :: cs, d :: ds, h => by
      simp only [lexLt] at h ⊢
      by_cases hcd : c = d
      · subst hcd
        rw [if_pos rfl] at h ⊢
        exact lexLt_asymm h
      · rw [if_neg hcd] at h
        rw [if_neg (Ne.symm hcd)]
        simp only [decide_eq_true_eq] at h
        simpa using not_lt_of_lt h

theorem lexLt_trans : ∀ {a b c : List Char},
    lexLt a b = true → lexLt b c = true → lexLt a c = true
  | [], [], _, hab, _ => by simpa [lexLt] using hab
  | [], _ :: _, [], _, hbc => by simpa [lexLt] using hbc
  | [], _ :: _, _ :: _, _, _ => by simp [lexLt]
  | _ :: _, [], _, hab, _ => by simpa [lexLt] using hab
  | _ :: _, _ :: _, [], _, hbc => by simpa [lexLt] using hbc
  | a :: as, b :: bs, c :: cs, hab, hbc => by
      simp only [lexLt] at hab hbc ⊢
      by_cases h1 : a = b
      · subst h1
        rw [if_pos rfl] at hab
        by_cases h2 : a = c
        · subst h2
          rw [if_pos rfl] at hbc ⊢
          exact lexLt_trans hab hbc
        · rw [if_neg h2] at hbc ⊢
          exact hbc
      · rw [if_neg h1] at hab
        simp only [decide_eq_true_eq] at hab
        by_cases h2 : b = c
        · subst h2
          rw [if_neg h1]
          simpa using hab
        · rw [if_neg h2] at hbc
          simp only [decide_eq_true_eq] at hbc
          have hac : a < c := lt_trans hab hbc
          rw [if_neg (ne_of_lt hac)]
          simpa using hac

theorem lexLt_connex : ∀ {a b : List Char},
    lexLt a b = false → lexLt b a = false → a = b
  | [], [], _, _ => rfl
  | [], _ :: _, hab, _ => by simp [lexLt] at hab
  | _ :: _, [], _, hba => by simp [lexLt] at hba
  | a :: as, b :: bs, hab, hba => by
      simp only [lexLt] at hab hba
      by_cases h1 : a = b
      · subst h1
        rw [if_pos rfl] at hab hba
        rw [lexLt_connex hab hba]
      · rw [if_neg h1] at hab
        rw [if_neg (Ne.symm h1)] at hba
        simp only [decide_eq_false_iff_not] at hab hba
        rcases lt_or_gt_of_ne h1 with h | h
        · exact absurd h hab
        · exact absurd h hba

theorem scoreLt_iff {p q : Score} : scoreLt p q = true ↔ p.1 * q.2 < q.1 * p.2 := by
  simp [scoreLt]

theorem scoreEqB_iff {p q : Score} : scoreEqB p q = true ↔ p.1 * q.2 = q.1 * p.2 := by
  simp [scoreEqB]

theorem tupleLt_irrefl (p : Score × String) : tupleLt p p = false := by
  simp [tupleLt, scoreLt, scoreEqB, lexLt_irrefl]

theorem tupleLt_asymm {p q : Score × String} (h : tupleLt p q = true) :
    tupleLt q p = false := by
  simp only [tupleLt, Bool.or_eq_true, Bool.and_eq_true] at h
  simp only [tupleLt, Bool.or_eq_false_iff, Bool.and_eq_false_iff]
  rcases h with h | ⟨he, hl⟩
  · rw [scoreLt_iff] at h
    constructor
    · simp [scoreLt_iff, scoreLt]
      omega
    · left
      simp only [scoreEqB, decide_eq_false_iff_not]
      omega
  · rw [scoreEqB_iff] at he
    constructor
    · simp only [scoreLt, decide_eq_false_iff_not]
      omega
    · right
      exact lexLt_asymm hl

/-- Pseudo-transitivity of the negation of the tuple order, given positive
denominators: comparisons `2*m₁/t₁ ≤ 2*m₂/t₂` chain by two
cross-multiplications and one cancellation. -/
theorem tupleLt_pseudo_trans {p q x : Score × String}
    (hp : 0 < p.1.2) (hq : 0 < q.1.2) (hx : 0 < x.1.2)
    (hpq : tupleLt p q = false) (hqx : tupleLt q x = false) :
    tupleLt p x = false := by
  obtain ⟨⟨a1, b1⟩, s1⟩ := p
  obtain ⟨⟨a2, b2⟩, s2⟩ := q
  obtain ⟨⟨a3, b3⟩, s3⟩ := x
  simp only [tupleLt, Bool.or_eq_false_iff, Bool.and_eq_false_iff,
    scoreLt, scoreEqB, decide_eq_false_iff_not, decide_eq_true_eq] at hpq hqx ⊢
  simp only [Nat.not_lt] at hpq hqx
  obtain ⟨hle1, hor1⟩ := hpq
  obtain ⟨hle2, hor2⟩ := hqx
  -- hle1 : a2 * b1 ≤ a1 * b2,  hle2 : a3 * b2 ≤ a2 * b3
  have key : a3 * b1 * b2 ≤ a1 * b3 * b2 := by
    calc a3 * b1 * b2 = (a3 * b2) * b1 := by ring
    _ ≤ (a2 * b3) * b1 := Nat.mul_le_mul_right _ hle2
    _ = (a2 * b1) * b3 := by ring
    _ ≤ (a1 * b2) * b3 := Nat.mul_le_mul_right _ hle1
    _ = a1 * b3 * b2 := by ring
  have hle3 : a3 * b1 ≤ a1 * b3 := Nat.le_of_mul_le_mul_right key hq
  refine ⟨by omega, ?_⟩
  by_cases heq : a1 * b3 = a3 * b1
  · right
    -- the chain is tight: both intermediate inequalities are equalities
    have h1 : (a2 * b1) * b3 = (a1 * b2) * b3 := by nlinarith
    have h2 : (a3 * b2) * b1 = (a2 * b3) * b1 := by nlinarith
    have he1 : a2 * b1 = a1 * b2 := Nat.eq_of_mul_eq_mul_right hx h1
    have he2 : a3 * b2 = a2 * b3 := Nat.eq_of_mul_eq_mul_right hp h2
    have hl1 : lexLt s1.data s2.data = false := by
      rcases hor1 with h | h
      · exact absurd he1.symm h
      · exact h
    have hl2 : lexLt s2.data s3.data = false := by
      rcases hor2 with h | h
      · exact absurd he2.symm h
      · exact h
    by_cases hcon : lexLt s1.data s3.data = true
    · exfalso
      by_cases h21 : lexLt s2.data s1.data = true
      · exact absurd (lexLt_trans h21 hcon) (by simp [hl2])
      · have heqs := lexLt_connex hl1 (by simpa using h21)
        rw [heqs] at hcon
        exact absurd hcon (by simp [hl2])
    · simpa using hcon
  · left
    omega

/-- `bestPair` returns `none` only on the empty list. -/
theorem bestPair_none : ∀ {l : List (Score × String)}, bestPair l = none → l = [] := by
  intro l h
  cases l with
  | nil => rfl
  | cons p rest =>
      simp only [bestPair] at h
      cases hr : bestPair rest with
      | none => rw [hr] at h; dsimp only at h; cases h
      | some q =>
          rw [hr] at h; dsimp only at h
          by_cases hc : tupleLt p q = true
          · rw [if_pos hc] at h; cases h
          · rw [if_neg hc] at h; cases h

/-- `bestPair` is never beaten by an element of the list (when every
score has a positive denominator). -/
theorem bestPair_not_lt : ∀ {l : List (Score × String)}
    (_ : ∀ p ∈ l, 0 < p.1.2) {b : Score × String},
    bestPair l = some b → ∀ p ∈ l, tupleLt b p = false := by
  intro l
  induction l with
  | nil => intro _ b h; simp [bestPair] at h
  | cons p rest ih =>
      intro hpos b h x hx
      simp only [bestPair] at h
      cases hr : bestPair rest with
      | none =>
          rw [hr] at h; dsimp only at h; cases h
          rw [bestPair_none hr] at hx
          simp only [List.mem_cons, List.not_mem_nil, or_false] at hx
          rw [hx]
          exact tupleLt_irrefl p
      | some q =>
          rw [hr] at h; dsimp only at h
          have hposrest : ∀ p ∈ rest, 0 < p.1.2 := fun y hy =>
            hpos y (List.mem_cons_of_mem p hy)
          by_cases hc : tupleLt p q = true
          · rw [if_pos hc] at h; cases h
            rcases List.mem_cons.mp hx with rfl | hx'
            · exact tupleLt_asymm hc
            · exact ih hposrest hr x hx'
          · rw [if_neg hc] at h; cases h
            rcases List.mem_cons.mp hx with rfl | hx'
            · exact tupleLt_irrefl x
            · have hq : q ∈ rest := bestPair_mem hr
              exact tupleLt_pseudo_trans (hpos p (List.mem_cons_self p rest))
                (hposrest q hq) (hposrest x hx')
                (by simpa using hc) (ih hposrest hr x hx')

theorem runLen_le_left : ∀ a b : List Char, runLen a b ≤ a.length
  | [], _ => by simp [runLen]
  | _ :: _, [] => by simp [runLen]
  | x :: xs, y :: ys => by
      simp only [runLen, List.length_cons]
      by_cases h : x = y
      · rw [if_pos h]
        exact Nat.succ_le_succ (runLen_le_left xs ys)
      · rw [if_neg h]
        omega

theorem runLen_le_right : ∀ a b : List Char, runLen a b ≤ b.length
  | [], _ => by simp [runLen]
  | _ :: _, [] => by simp [runLen]
  | x :: xs, y :: ys => by
      simp only [runLen, List.length_cons]
      by_cases h : x = y
      · rw [if_pos h]
        exact Nat.succ_le_succ (runLen_le_right xs ys)
      · rw [if_neg h]
        omega

theorem runLen_take_eq : ∀ a b : List Char,
    a.take (runLen a b) = b.take (runLen a b)
  | [], _ => by simp [runLen]
  | _ :: _, [] => by simp [runLen]
  | x :: xs, y :: ys => by
      simp only [runLen]
      by_cases h : x = y
      · rw [if_pos h, h]
        simp [List.take_succ_cons, runLen_take_eq xs ys]
      · rw [if_neg h]
        simp

theorem pickCand_cases : ∀ (best : Nat × Nat × Nat) (l : List (Nat × Nat × Nat)),
    pickCand best l = best ∨ pickCand best l ∈ l := by
  intro best l
  induction l generalizing best with
  | nil => left; rfl
  | cons c rest ih =>
      simp only [pickCand]
      rcases ih (if best.1 < c.1 then c else best) with h | h
      · rw [h]
        by_cases hc : best.1 < c.1
        · right; rw [if_pos hc]; exact List.mem_cons_self c rest
        · left; rw [if_neg hc]
      · right; exact List.mem_cons_of_mem c h

theorem mem_cands {a b : List Char} {c : Nat × Nat × Nat} (h : c ∈ cands a b) :
    c.1 = runLen (a.drop c.2.1) (b.drop c.2.2) ∧ c.2.1 < a.length ∧ c.2.2 < b.length := by
  simp only [cands, List.mem_flatMap, List.mem_map, List.mem_range] at h
  obtain ⟨i, hi, j, hj, rfl⟩ := h
  exact ⟨rfl, hi, hj⟩

theorem findBest_mem_of_pos {a b : List Char} (h : (findBest a b).1 ≠ 0) :
    findBest a b ∈ cands a b := by
  rcases pickCand_cases (0, 0, 0) (cands a b) with h0 | hm
  · rw [findBest] at h
    rw [h0] at h
    simp at h
  · exact hm

theorem interCount_eq_card (a b : List Char) :
    interCount a b = Multiset.card ((a : Multiset Char) ∩ (b : Multiset Char)) := by
  rw [interCount, Multiset.coe_inter]
  exact (Multiset.coe_card _).symm

theorem interCount_le_left (a b : List Char) : interCount a b ≤ a.length := by
  rw [interCount_eq_card]
  calc Multiset.card ((a : Multiset Char) ∩ b) ≤ Multiset.card (a : Multiset Char) :=
        Multiset.card_le_card (Multiset.inter_le_left _ _)
  _ = a.length := Multiset.coe_card a

theorem interCount_le_right (a b : List Char) : interCount a b ≤ b.length := by
  rw [interCount_eq_card]
  calc Multiset.card ((a : Multiset Char) ∩ b) ≤ Multiset.card (b : Multiset Char) :=
        Multiset.card_le_card (Multiset.inter_le_right _ _)
  _ = b.length := Multiset.coe_card b

theorem interCount_self (l : List Char) : interCount l l = l.length := by
  rw [interCount_eq_card]
  have : (l : Multiset Char) ∩ (l : Multiset Char) = (l : Multiset Char) :=
    le_antisymm (Multiset.inter_le_left _ _) (Multiset.le_inter le_rfl le_rfl)
  rw [this]
  exact Multiset.coe_card l

/-- Superadditivity of the multiset intersection over three-way
concatenations. -/
theorem interCount_tri (u v w u' v' w' : List Char) :
    interCount u u' + interCount v v' + interCount w w' ≤
    interCount (u ++ v ++ w) (u' ++ v' ++ w') := by
  rw [interCount_eq_card, interCount_eq_card, interCount_eq_card, interCount_eq_card]
  have hco : ((u ++ v ++ w : List Char) : Multiset Char)
      = (u : Multiset Char) + v + w := by
    rw [← Multiset.coe_add, ← Multiset.coe_add]
  have hco' : ((u' ++ v' ++ w' : List Char) : Multiset Char)
      = (u' : Multiset Char) + v' + w' := by
    rw [← Multiset.coe_add, ← Multiset.coe_add]
  rw [hco, hco']
  have hle : (u : Multiset Char) ∩ u' + (v : Multiset Char) ∩ v'
      + (w : Multiset Char) ∩ w'
      ≤ ((u : Multiset Char) + v + w) ∩ ((u' : Multiset Char) + v' + w') := by
    apply Multiset.le_inter
    · exact add_le_add (add_le_add (Multiset.inter_le_left _ _)
        (Multiset.inter_le_left _ _)) (Multiset.inter_le_left _ _)
    · exact add_le_add (add_le_add (Multiset.inter_le_right _ _)
        (Multiset.inter_le_right _ _)) (Multiset.inter_le_right _ _)
  calc Multiset.card ((u : Multiset Char) ∩ u') + Multiset.card ((v : Multiset Char) ∩ v')
        + Multiset.card ((w : Multiset Char) ∩ w')
      = Multiset.card ((u : Multiset Char) ∩ u' + (v : Multiset Char) ∩ v'
          + (w : Multiset Char) ∩ w') := by
        rw [Multiset.card_add, Multiset.card_add]
  _ ≤ _ := Multiset.card_le_card hle

/-- The total matched size never exceeds the multiset intersection:
every matching block matches equal segments, and blocks live in disjoint
pieces of both strings. -/
theorem matchTotalF_le_inter : ∀ (fuel : Nat) (a b : List Char),
    a.length + b.length ≤ fuel → matchTotalF fuel a b ≤ interCount a b := by
  intro fuel
  induction fuel with
  | zero => intro a b _; simp [matchTotalF]
  | succ f ih =>
      intro a b hf
      simp only [matchTotalF]
      by_cases h0 : (findBest a b).1 = 0
      · rw [if_pos h0]
        exact Nat.zero_le _
      · rw [if_neg h0]
        obtain ⟨hrun, hia, hjb⟩ := mem_cands (findBest_mem_of_pos h0)
        set k := (findBest a b).1 with hk
        set i := (findBest a b).2.1 with hi
        set j := (findBest a b).2.2 with hj
        have hka : k ≤ a.length - i := by
          rw [hrun]
          calc runLen (a.drop i) (b.drop j) ≤ (a.drop i).length := runLen_le_left _ _
          _ = a.length - i := List.length_drop _ _
        have hkb : k ≤ b.length - j := by
          rw [hrun]
          calc runLen (a.drop i) (b.drop j) ≤ (b.drop j).length := runLen_le_right _ _
          _ = b.length - j := List.length_drop _ _
        have hkpos : 0 < k := Nat.pos_of_ne_zero h0
        -- the matched segments
        have hseg : (a.drop i).take k = (b.drop j).take k := by
          rw [hrun]
          exact runLen_take_eq (a.drop i) (b.drop j)
        have hseglen : ((a.drop i).take k).length = k := by
          rw [List.length_take, List.length_drop]
          omega
        -- decompositions
        have hadec : a = a.take i ++ ((a.drop i).take k ++ a.drop (i + k)) := by
          conv_lhs => rw [← List.take_append_drop i a]
          congr 1
          conv_lhs => rw [← List.take_append_drop k (a.drop i)]
          rw [List.drop_drop]
        have hbdec : b = b.take j ++ ((b.drop j).take k ++ b.drop (j + k)) := by
          conv_lhs => rw [← List.take_append_drop j b]
          congr 1
          conv_lhs => rw [← List.take_append_drop k (b.drop j)]
          rw [List.drop_drop]
        have hlen_take_a : (a.take i).length = i := by
          rw [List.length_take]
          omega
        have hlen_take_b : (b.take j).length = j := by
          rw [List.length_take]
          omega
        have ih1 : matchTotalF f (a.take i) (b.take j) ≤
            interCount (a.take i) (b.take j) := by
          apply ih
          rw [hlen_take_a, hlen_take_b]
          omega
        have ih2 : matchTotalF f (a.drop (i + k)) (b.drop (j + k)) ≤
            interCount (a.drop (i + k)) (b.drop (j + k)) := by
          apply ih
          rw [List.length_drop, List.length_drop]
          omega
        have hsegIC : interCount ((a.drop i).take k) ((b.drop j).take k) = k := by
          rw [← hseg, interCount_self, hseglen]
        calc matchTotalF f (a.take i) (b.take j) + k
              + matchTotalF f (a.drop (i + k)) (b.drop (j + k))
            ≤ interCount (a.take i) (b.take j)
              + interCount ((a.drop i).take k) ((b.drop j).take k)
              + interCount (a.drop (i + k)) (b.drop (j + k)) := by
              rw [hsegIC]
              exact add_le_add (add_le_add ih1 le_rfl) ih2
        _ ≤ interCount (a.take i ++ (a.drop i).take k ++ a.drop (i + k))
              (b.take j ++ (b.drop j).take k ++ b.drop (j + k)) :=
              interCount_tri _ _ _ _ _ _
        _ = interCount a b := by
              rw [List.append_assoc, ← hadec, List.append_assoc, ← hbdec]

theorem matchTotal_le_interCount (a b : List Char) :
    matchTotal a b ≤ interCount a b :=
  matchTotalF_le_inter _ a b le_rfl

/-- If the true ratio clears the cutoff then so do both quick ratios:
the whole `get_close_matches` filter reduces to `ratio() >= cutoff`. -/
theorem qualifies_of_cutoff {x n : List Char}
    (h : cutoffLe (ratioS x n) = true) : qualifies x n = true := by
  simp only [cutoffLe, ratioS, decide_eq_true_eq] at h
  have hIC := matchTotal_le_interCount x n
  have hl := interCount_le_left x n
  have hr := interCount_le_right x n
  simp only [qualifies, cutoffLe, realQuickRatioS, quickRatioS, ratioS,
    Bool.and_eq_true, decide_eq_true_eq]
  refine ⟨⟨?_, ?_⟩, ?_⟩ <;> omega

theorem str_eq_empty_of_data {s : String} (h : s.data = []) : s = "" := by
  cases s with
  | mk d => cases h; rfl

theorem qualPairs_mem_elim {n : String} {choices : List String} {p : Score × String}
    (h : p ∈ qualPairs n choices) :
    p.2 ∈ choices ∧ qualifies p.2.data n.data = true ∧ p.1 = ratioS p.2.data n.data := by
  simp only [qualPairs, List.mem_map, List.mem_filter] at h
  obtain ⟨x, ⟨hx, hq⟩, rfl⟩ := h
  exact ⟨hx, hq, rfl⟩

theorem qualPairs_mem_intro {n x : String} {choices : List String}
    (hx : x ∈ choices) (hq : qualifies x.data n.data = true) :
    (ratioS x.data n.data, x) ∈ qualPairs n choices := by
  simp only [qualPairs, List.mem_map]
  exact ⟨x, List.mem_filter.mpr ⟨hx, hq⟩, rfl⟩

/-- Every scored pair has a positive denominator: the denominator is
`len(x) + len(n)`, and it can vanish only when both strings are empty,
in which case `n = x ∈ choices`, contradicting the exact-membership check
having failed. -/
theorem qualPairs_pos {n : String} {choices : List String}
    (hn : n ∉ choices) : ∀ p ∈ qualPairs n choices, 0 < p.1.2 := by
  intro p hp
  obtain ⟨hmem, _, hsc⟩ := qualPairs_mem_elim hp
  rw [hsc]
  simp only [ratioS]
  by_contra h
  push_neg at h
  have h2 : p.2.data.length = 0 ∧ n.data.length = 0 := by omega
  have hpe : p.2 = "" := str_eq_empty_of_data (List.eq_nil_of_length_eq_zero h2.1)
  have hne : n = "" := str_eq_empty_of_data (List.eq_nil_of_length_eq_zero h2.2)
  rw [hpe] at hmem
  rw [hne] at hn
  exact hn hmem

/-- When the exact-membership check fails, `resolve_name_fuzzy` is
`get_close_matches`. -/
theorem resolve_eq_close {name : String} {choices : List String}
    {al : List (String × String)} (hn : resolveNorm name al ∉ choices) :
    resolve_name_fuzzy name choices al
      = getCloseMatches1 (resolveNorm name al) choices := by
  simp only [resolve_name_fuzzy]
  rw [if_neg hn]

theorem dwLen (p : Char → Bool) : ∀ l : List Char, (l.dropWhile p).length ≤ l.length := by
  intro l
  induction l with
  | nil => simp
  | cons c l ih =>
      by_cases h : p c
      · rw [List.dropWhile_cons_of_pos h]
        simp only [List.length_cons]
        omega
      · rw [List.dropWhile_cons_of_neg h]

theorem dropWhile_head_false {p : Char → Bool} :
    ∀ {l : List Char} {d : Char} {m : List Char}, l.dropWhile p = d :: m → p d = false := by
  intro l
  induction l with
  | nil => intro d m h; cases h
  | cons c l ih =>
      intro d m h
      by_cases hc : p c
      · rw [List.dropWhile_cons_of_pos hc] at h
        exact ih h
      · rw [List.dropWhile_cons_of_neg hc] at h
        cases h
        simpa using hc

theorem tidyWS_cons_space {d : Char} {m : List Char} (hd : pyIsSpace d = false) :
    tidyWS (' ' :: d :: m) = tidyWS (d :: m) := by
  simp [tidyWS, hd]

theorem tidyWS_cons_nonspace {c : Char} {l : List Char} (hc : pyIsSpace c = false) :
    tidyWS (c :: l) = tidyWS l := by
  simp [tidyWS, hc]

theorem tidy_space_elim {c : Char} {l : List Char}
    (hc : pyIsSpace c = true) (h : tidyWS (c :: l) = true) :
    c = ' ' ∧ (l.head?.all fun d => !pyIsSpace d) = true ∧ tidyWS l = true := by
  simp only [tidyWS, hc, if_true, Bool.and_eq_true, decide_eq_true_eq] at h
  cases l with
  | nil => exact ⟨h.1.1, by simp, h.2⟩
  | cons d m =>
      refine ⟨h.1.1, ?_, h.2⟩
      simpa using h.1.2

theorem tidy_tail {c : Char} {l : List Char} (h : tidyWS (c :: l) = true) :
    tidyWS l = true := by
  simp only [tidyWS, Bool.and_eq_true] at h
  exact h.2

/-- With the in-run flag set, the scan first skips the rest of the run. -/
theorem collapseWSAux_true (l : List Char) :
    collapseWSAux true l = collapseWSAux false (l.dropWhile pyIsSpace) := by
  induction l with
  | nil => rfl
  | cons c l ih =>
      by_cases h : pyIsSpace c
      · rw [List.dropWhile_cons_of_pos h]
        simp only [collapseWSAux, h, if_pos, if_true]
        exact ih
      · rw [List.dropWhile_cons_of_neg h]
        simp only [collapseWSAux, h]
        simp

theorem collapseWSAux_cons_space {c : Char} (l : List Char) (hc : pyIsSpace c = true) :
    collapseWSAux false (c :: l) = ' ' :: collapseWSAux true l := by
  simp [collapseWSAux, hc]

theorem collapseWSAux_cons_nonspace {c : Char} (l : List Char) (hc : pyIsSpace c = false) :
    collapseWSAux false (c :: l) = c :: collapseWSAux false l := by
  simp [collapseWSAux, hc]

theorem tidy_collapseWSAux : ∀ (n : Nat) (l : List Char), l.length ≤ n →
    tidyWS (collapseWSAux false l) = true := by
  intro n
  induction n with
  | zero =>
      intro l h
      rw [List.length_eq_zero.mp (Nat.le_zero.mp h)]
      rfl
  | succ n ih =>
      intro l h
      cases l with
      | nil => rfl
      | cons c l' =>
          simp only [List.length_cons] at h
          by_cases hc : pyIsSpace c
          · rw [collapseWSAux_cons_space l' hc, collapseWSAux_true]
            cases hm : l'.dropWhile pyIsSpace with
            | nil => decide
            | cons d m' =>
                have hd : pyIsSpace d = false := dropWhile_head_false hm
                have hlen : (d :: m').length ≤ n := by
                  have hw := dwLen pyIsSpace l'
                  rw [hm] at hw
                  simp only [List.length_cons] at hw ⊢
                  omega
                have htm := ih _ hlen
                rw [collapseWSAux_cons_nonspace m' hd] at htm ⊢
                rw [tidyWS_cons_space hd]
                exact htm
          · have hc' : pyIsSpace c = false := by simpa using hc
            rw [collapseWSAux_cons_nonspace l' hc']
            rw [tidyWS_cons_nonspace hc']
            exact ih l' (by omega)

theorem tidy_collapse (l : List Char) : tidyWS (collapseWS l) = true :=
  tidy_collapseWSAux l.length l le_rfl

theorem tidy_dropWhile {l : List Char} (h : tidyWS l = true) :
    tidyWS (l.dropWhile pyIsSpace) = true := by
  induction l with
  | nil => exact h
  | cons c l ih =>
      by_cases hc : pyIsSpace c
      · rw [List.dropWhile_cons_of_pos hc]
        exact ih (tidy_tail h)
      · rwa [List.dropWhile_cons_of_neg hc]

theorem dropEndSpace_cons (c : Char) (l : List Char) :
    dropEndSpace (c :: l)
      = if (dropEndSpace l).isEmpty && pyIsSpace c then [] else c :: dropEndSpace l :=
  rfl

theorem dropEndSpace_head_eq : ∀ l : List Char,
    dropEndSpace l = [] ∨ (dropEndSpace l).head? = l.head? := by
  intro l
  cases l with
  | nil => left; rfl
  | cons c l' =>
      rw [dropEndSpace_cons]
      by_cases h : (dropEndSpace l').isEmpty && pyIsSpace c
      · left; rw [if_pos h]
      · right; rw [if_neg h]; rfl

theorem dropEndSpace_idem : ∀ l : List Char,
    dropEndSpace (dropEndSpace l) = dropEndSpace l := by
  intro l
  induction l with
  | nil => rfl
  | cons c l' ih =>
      rw [dropEndSpace_cons]
      by_cases h : (dropEndSpace l').isEmpty && pyIsSpace c
      · rw [if_pos h]; rfl
      · rw [if_neg h, dropEndSpace_cons, ih]
        rw [if_neg h]

theorem tidy_dropEndSpace : ∀ {l : List Char}, tidyWS l = true →
    tidyWS (dropEndSpace l) = true := by
  intro l
  induction l with
  | nil => intro h; exact h
  | cons c l' ih =>
      intro h
      rw [dropEndSpace_cons]
      by_cases hcase : ((dropEndSpace l').isEmpty && pyIsSpace c) = true
      · rw [if_pos hcase]; rfl
      · rw [if_neg hcase]
        have htail := ih (tidy_tail h)
        by_cases hc : pyIsSpace c = true
        · obtain ⟨hc', hnext, _⟩ := tidy_space_elim hc h
          subst hc'
          cases hr : dropEndSpace l' with
          | nil =>
              rw [hr] at hcase
              simp [hc] at hcase
          | cons d m =>
              rcases dropEndSpace_head_eq l' with he | he
              · rw [he] at hr; cases hr
              · rw [hr] at he
                cases l' with
                | nil => cases he
                | cons d' m' =>
                    simp only [List.head?_cons, Option.some.injEq] at he
                    have hd : pyIsSpace d = false := by
                      rw [he]
                      simpa using hnext
                    rw [tidyWS_cons_space hd, ← hr]
                    exact htail
        · have hc' : pyIsSpace c = false := by simpa using hc
          rw [tidyWS_cons_nonspace hc']
          exact htail

theorem tidy_collapseWSAux_id : ∀ {l : List Char}, tidyWS l = true →
    collapseWSAux false l = l := by
  intro l
  induction l with
  | nil => intro _; rfl
  | cons c l' ih =>
      intro h
      have htail := ih (tidy_tail h)
      by_cases hc : pyIsSpace c = true
      · obtain ⟨hc', hnext, _⟩ := tidy_space_elim hc h
        subst hc'
        rw [collapseWSAux_cons_space l' hc, collapseWSAux_true]
        cases l' with
        | nil => rfl
        | cons d m =>
            have hd : pyIsSpace d = false := by simpa using hnext
            rw [List.dropWhile_cons_of_neg (by simp [hd])]
            rw [htail]
      · have hc' : pyIsSpace c = false := by simpa using hc
        rw [collapseWSAux_cons_nonspace l' hc']
        rw [htail]

/-- `re.sub(r"\s+", " ", t).strip()` is idempotent. -/
theorem collapse_strip_idem (z : List Char) :
    pyStripL (collapseWS (pyStripL (collapseWS z))) = pyStripL (collapseWS z) := by
  have htw : tidyWS (collapseWS z) = true := tidy_collapse z
  have ht1 : tidyWS (pyStripL (collapseWS z)) = true := by
    rw [pyStripL]
    exact tidy_dropEndSpace (tidy_dropWhile htw)
  rw [show collapseWS (pyStripL (collapseWS z)) = pyStripL (collapseWS z) from
    tidy_collapseWSAux_id ht1]
  -- remains : pyStripL is idempotent on an already-stripped list
  rw [pyStripL, pyStripL]
  have hdw : (dropEndSpace ((collapseWS z).dropWhile pyIsSpace)).dropWhile pyIsSpace
      = dropEndSpace ((collapseWS z).dropWhile pyIsSpace) := by
    cases hr : dropEndSpace ((collapseWS z).dropWhile pyIsSpace) with
    | nil => rfl
    | cons d m =>
        rcases dropEndSpace_head_eq ((collapseWS z).dropWhile pyIsSpace) with he | he
        · rw [he] at hr; cases hr
        · rw [hr] at he
          cases hu : (collapseWS z).dropWhile pyIsSpace with
          | nil => rw [hu] at he; cases he
          | cons d' m' =>
              rw [hu] at he
              simp only [List.head?_cons, Option.some.injEq] at he
              subst he
              have hd : pyIsSpace d = false := dropWhile_head_false hu
              rw [List.dropWhile_cons_of_neg (by simp [hd])]
  rw [hdw, dropEndSpace_idem]

/-- If `\b k \b` matches nowhere in `t`, then `re.sub` leaves `t`
unchanged. -/
theorem subWF_of_not_hasW (k v : List Char) : ∀ (t : List Char) (prevW : Bool)
    (fuel : Nat), t.length ≤ fuel → hasW k prevW t = false →
    subWF k v fuel prevW t = t := by
  intro t
  induction t with
  | nil =>
      intro prevW fuel _ _
      cases fuel <;> rfl
  | cons c rest ih =>
      intro prevW fuel hlen hmatch
      cases fuel with
      | zero => simp at hlen
      | succ f =>
          simp only [hasW, Bool.or_eq_false_iff] at hmatch
          simp only [subWF, hmatch.1, Bool.false_eq_true, if_false]
          rw [ih (isWordChar c) f (by simpa using hlen) hmatch.2]

/-- If no confusion key matches the text, the whole substitution fold
leaves it unchanged. -/
theorem foldl_applyConfStep_id : ∀ (pairs : List (String × String)) (s : List Char),
    (∀ kv ∈ pairs, hasW kv.1.data false s = false) →
    pairs.foldl applyConfStep s = s := by
  intro pairs
  induction pairs with
  | nil => intro s _; rfl
  | cons kv rest ih =>
      intro s h
      have hstep : applyConfStep s kv = s := by
        rw [applyConfStep, subW]
        exact subWF_of_not_hasW _ _ s false s.length le_rfl
          (h kv (List.mem_cons_self kv rest))
      rw [List.foldl_cons, hstep]
      exact ih s fun x hx => h x (List.mem_cons_of_mem kv hx)

/-- `fuzzy_wake` of the empty string is false. -/
theorem fuzzy_wake_empty : fuzzy_wake "" = false := by decide

/-- `cleanOf` of the empty string is empty. -/
theorem cleanOf_empty : cleanOf "" = "" := by decide

/-! ## Claim theorems -/

/-- Claim C1: texts whose leading token is outside the verb set are
ignored while awake (`"the weather is nice"` dispatches nothing), as
claimed; but the gate's hard-coded set is
`{open, search, google, lookup, close, time, what}` — it rejects the
allow-list verbs `volume`, `mute`, `screenshot`, `launch`, `start` that
the module's own docstring and `INTENT_VERBS` constant promise, leaving
the volume / mute / screenshot routing patterns (which do match such
texts, as `route` shows) unreachable. -/
theorem c1_intent_gate :
    gate_intent "the weather is nice" = false ∧
    onFinal ⟨true, false⟩ "the weather is nice" = (⟨true, false⟩, Effect.ignored) ∧
    gate_intent "volume up" = false ∧
    gate_intent "mute" = false ∧
    gate_intent "screenshot" = false ∧
    gate_intent "launch notepad" = false ∧
    route "volume up" = Effect.volumeUp ∧
    route "mute" = Effect.muteAll ∧
    route "screenshot" = Effect.screenshotTaken ∧
    route "launch notepad" = Effect.openAppOk "notepad" ∧
    onFinal ⟨true, false⟩ "volume up" = (⟨true, false⟩, Effect.ignored) ∧
    onFinal ⟨true, false⟩ "screenshot" = (⟨true, false⟩, Effect.ignored) := by
  decide

/-- Claim C2: awake on `"open youtube"`, the code speaks the
app-not-found fallback — `OPEN_APP_PAT` claims every `"open …"` text, the
app resolver fails on `"youtube"`, and the site registry is never
consulted, although the site branch (had it been reachable) resolves
`"youtube"` exactly; `OPEN_SITE_PAT`'s texts are all already claimed by
`OPEN_APP_PAT`. -/
theorem c2_open_youtube :
    onFinal ⟨true, false⟩ "open youtube"
      = (⟨false, false⟩, Effect.openAppNotFound "youtube") ∧
    resolve_name_fuzzy "youtube" APP_KEYS APP_ALIASES = none ∧
    resolve_name_fuzzy "youtube" SITE_KEYS SITE_ALIASES = some "youtube" ∧
    executorOpenSite "youtube" = Effect.openSiteOk "youtube" ∧
    cmdRemainder ["open"] "open youtube" = some "youtube" ∧
    cmdRemainder ["open", "launch", "start"] "open youtube" = some "youtube" := by
  decide

/-- Claim C6: confusion entries are applied longest-key-first, replacing
whole words only, with whitespace re-collapsed: on the spec's example
table `{"open google": "open chrome", "google": "search"}` the longer key
wins on `"open google drive"` whichever insertion order the table uses,
substrings of words are untouched, and deletions re-collapse cleanly. -/
theorem c6_longest_match :
    sortKeysDesc [("open google", "open chrome"), ("google", "search")]
      = [("open google", "open chrome"), ("google", "search")] ∧
    sortKeysDesc [("google", "search"), ("open google", "open chrome")]
      = [("open google", "open chrome"), ("google", "search")] ∧
    applyConfusionsWith [("open google", "open chrome"), ("google", "search")]
      "open google drive" = "open chrome drive" ∧
    applyConfusionsWith [("google", "search"), ("open google", "open chrome")]
      "open google drive" = "open chrome drive" ∧
    applyConfusionsWith [("google", "search")] "open googles drive"
      = "open googles drive" ∧
    apply_confusions "open i think chrome" = "open chrome" := by
  decide

/-- Claim C9: `Listener.start` attempts 16000, 44100, 48000 in exactly
that order, stops at the first rate that opens (the attempted list is the
failing prefix plus the first success), and raises `DeviceUnavailable`
(`none`) iff every candidate fails. -/
theorem c9_rate_fallback (opens : Nat → Bool) :
    (listenerStart opens).2
      = CANDIDATE_RATES.takeWhile (fun r => !opens r)
        ++ (CANDIDATE_RATES.dropWhile (fun r => !opens r)).take 1 ∧
    ((listenerStart opens).1 = none ↔ ∀ r ∈ CANDIDATE_RATES, opens r = false) ∧
    (∀ r, (listenerStart opens).1 = some r ↔
       (CANDIDATE_RATES.dropWhile (fun r => !opens r)).head? = some r) := by
  rcases h16 : opens 16000 <;> rcases h44 : opens 44100 <;> rcases h48 : opens 48000 <;>
    simp [listenerStart, listenerStartGo, CANDIDATE_RATES, h16, h44, h48]

/-- Claim C9, witness: a device accepting only 44.1 kHz makes `start` try
16 kHz, fail, succeed at 44.1 kHz, and never try 48 kHz. -/
theorem c9_rate_fallback_witness :
    (listenerStart (fun r => decide (r = 44100))).1 = some 44100 ∧
    (listenerStart (fun r => decide (r = 44100))).2 = [16000, 44100] := by
  have h := c9_rate_fallback (fun r => decide (r = 44100))
  refine ⟨(h.2.2 44100).mpr (by decide), ?_⟩
  rw [h.1]
  decide

/-- Claim C3, counterexample: with the confusion table the program loads,
correction is not idempotent — `"been will"` becomes `"open will"`
(via `"been" → "open"`), which is itself a confusion key, so a second
application yields `"open"`. -/
theorem c3_idempotence_cex :
    apply_confusions "been will" = "open will" ∧
    apply_confusions (apply_confusions "been will") = "open" ∧
    apply_confusions (apply_confusions "been will") ≠ apply_confusions "been will" := by
  decide

/-- Claim C3, amended: `apply_confusions` is idempotent on exactly those
inputs whose corrected output contains no whole-word occurrence of a
confusion key (the counterexample `"been will"` violates that side
condition); on such inputs every substitution pass is the identity and
the whitespace re-collapse is idempotent. -/
theorem c3_idempotence_amended (x : String)
    (h : (sortKeysDesc CONFUSIONS).all
          (fun kv => !(hasW kv.1.data false (apply_confusions x).data)) = true) :
    apply_confusions (apply_confusions x) = apply_confusions x := by
  have hkeys : ∀ kv ∈ sortKeysDesc CONFUSIONS,
      hasW kv.1.data false (apply_confusions x).data = false := by
    intro kv hkv
    have := List.all_eq_true.mp h kv hkv
    simpa using this
  have hfold := foldl_applyConfStep_id (sortKeysDesc CONFUSIONS) _ hkeys
  have heq : ∀ t : String, apply_confusions t
      = (pyStripL (collapseWS
          ((sortKeysDesc CONFUSIONS).foldl applyConfStep t.data))).asString :=
    fun _ => rfl
  have hdata : ∀ l : List Char, (List.asString l).data = l := fun _ => rfl
  rw [heq (apply_confusions x), hfold, heq x, hdata]
  exact congrArg List.asString (collapse_strip_idem _)

/-- Claim C3, amended, witness: `"open chrome"` is already fully
corrected (no key occurs in its image), and correction is idempotent
there. -/
theorem c3_idempotence_amended_witness :
    ((sortKeysDesc CONFUSIONS).all
      (fun kv => !(hasW kv.1.data false (apply_confusions "open chrome").data)) = true) ∧
    apply_confusions (apply_confusions "open chrome") = apply_confusions "open chrome" :=
  ⟨by decide, c3_idempotence_amended "open chrome" (by decide)⟩

/-- Claim C4, counterexample: awake with the stay-awake flag unset, the
gate-rejected text `"the weather is nice"` returns early from `on_final`
— before `self.awake = self.bypass_wake` — so the session stays `Awake`,
although the claim demands `Asleep` after an intent-gate rejection. -/
theorem c4_return_to_sleep_cex :
    onFinal ⟨true, false⟩ "the weather is nice" = (⟨true, false⟩, Effect.ignored) ∧
    (onFinal ⟨true, false⟩ "the weather is nice").1.awake = true := by
  decide

/-- Claim C4, amended: while awake with the stay-awake flag unset, any
final transcript whose cleaned text is non-empty and passes the intent
gate drives the session back to `Asleep` (whether it resolves to a
command or falls through every pattern); but a text rejected by the
intent gate — or empty after cleaning — returns early and leaves the
session `Awake`. -/
theorem c4_return_to_sleep_amended (st : NovaState) (text : String)
    (hawake : st.awake = true) (hbp : st.bypass_wake = false)
    (hclean : cleanOf (normalize text) ≠ "")
    (hgate : gate_intent (cleanOf (normalize text)) = true) :
    (onFinal st text).1.awake = false := by
  have ht : normalize text ≠ "" := by
    intro h
    apply hclean
    rw [h]
    exact cleanOf_empty
  simp [onFinal, ht, hawake, hclean, hgate, hbp]

/-- Claim C4, amended, witness: `"close the window"` passes the gate and
puts the session back to sleep. -/
theorem c4_return_to_sleep_amended_witness :
    cleanOf (normalize "close the window") ≠ "" ∧
    gate_intent (cleanOf (normalize "close the window")) = true ∧
    (onFinal ⟨true, false⟩ "close the window").1.awake = false :=
  ⟨by decide, by decide,
   c4_return_to_sleep_amended ⟨true, false⟩ "close the window"
     rfl rfl (by decide) (by decide)⟩

/-- Claim C5: while `Asleep`, a final transcript that matches no
wake-phrase alternative is dropped — no state change, no effect; one that
contains a wake phrase (matched on the lowercased text, hence
case-insensitively) only wakes the session and acknowledges, with no
other processing of that event. -/
theorem c5_wake_gate (st : NovaState) (text : String) (hasleep : st.awake = false) :
    (fuzzy_wake (normalize text) = false → onFinal st text = (st, Effect.ignored)) ∧
    (fuzzy_wake (normalize text) = true →
      onFinal st text = ({ st with awake := true }, Effect.sayReady)) := by
  constructor
  · intro hfw
    by_cases ht : normalize text = ""
    · simp [onFinal, ht]
    · simp [onFinal, ht, hasleep, hfw]
  · intro hfw
    have ht : normalize text ≠ "" := by
      intro h
      rw [h] at hfw
      rw [fuzzy_wake_empty] at hfw
      cases hfw
    simp [onFinal, ht, hasleep, hfw]

/-- Claim C5, witness: `"hey noah"` (a configured mis-hearing) and the
mixed-case `"Hey   Nova please"` wake the session with only the
acknowledgement; `"what time is it"` while asleep does nothing. -/
theorem c5_wake_gate_witness :
    onFinal ⟨false, false⟩ "hey noah" = (⟨true, false⟩, Effect.sayReady) ∧
    onFinal ⟨false, false⟩ "Hey   Nova please" = (⟨true, false⟩, Effect.sayReady) ∧
    onFinal ⟨false, false⟩ "what time is it" = (⟨false, false⟩, Effect.ignored) :=
  ⟨(c5_wake_gate ⟨false, false⟩ "hey noah" rfl).2 (by decide),
   (c5_wake_gate ⟨false, false⟩ "Hey   Nova please" rfl).2 (by decide),
   (c5_wake_gate ⟨false, false⟩ "what time is it" rfl).1 (by decide)⟩

/-- Claim C7, counterexample: on phrase `"ab"` with registry
`["abc", "abd"]`, both keys tie at the maximum score `4/5 ≥ 0.7` and have
equal length, so the claimed tie-break (shortest, then first in registry
order) demands `"abc"`; the code (`heapq.nlargest` on `(score, key)`
tuples) returns the lexicographically greatest tied key `"abd"`. -/
theorem c7_tiebreak_cex :
    resolve_name_fuzzy "ab" ["abc", "abd"] [] = some "abd" ∧
    scoreEqB (ratioS "abc".data "ab".data) (ratioS "abd".data "ab".data) = true ∧
    cutoffLe (ratioS "abc".data "ab".data) = true ∧
    qualifies "abc".data "ab".data = true ∧
    qualifies "abd".data "ab".data = true ∧
    "abc".data.length = "abd".data.length ∧
    resolve_name_fuzzy "ab" ["abc", "abd"] [] ≠ some "abc" := by
  decide

/-- Claim C7, amended: when the normalised phrase is not an exact registry
key and two registry keys both pass the `get_close_matches` filter with
equal similarity scores, the resolver never returns the lexicographically
smaller of the two — ties are broken towards the lexicographically
greatest key (`heapq.nlargest` tuple order), not the shortest /
first-in-registry key; resolution remains deterministic. -/
theorem c7_tiebreak_amended (name : String) (choices : List String)
    (al : List (String × String)) (k1 k2 : String)
    (hn : resolveNorm name al ∉ choices)
    (h2 : k2 ∈ choices)
    (hq2 : qualifies k2.data (resolveNorm name al).data = true)
    (heq : scoreEqB (ratioS k1.data (resolveNorm name al).data)
                    (ratioS k2.data (resolveNorm name al).data) = true)
    (hlex : lexLt k1.data k2.data = true) :
    resolve_name_fuzzy name choices al ≠ some k1 := by
  intro h
  rw [resolve_eq_close hn] at h
  simp only [getCloseMatches1] at h
  cases hb : bestPair (qualPairs (resolveNorm name al) choices) with
  | none => rw [hb] at h; cases h
  | some b =>
      rw [hb] at h
      simp only [Option.map_some'] at h
      injection h with hbk
      obtain ⟨hmem, hq, hsc⟩ := qualPairs_mem_elim (bestPair_mem hb)
      have hk2 := qualPairs_mem_intro h2 hq2
      have hnl := bestPair_not_lt (qualPairs_pos hn) hb _ hk2
      rw [hbk] at hsc
      simp [tupleLt, hsc, hbk, heq, hlex] at hnl

/-- Claim C7, amended, witness at the counterexample input. -/
theorem c7_tiebreak_amended_witness :
    resolve_name_fuzzy "ab" ["abc", "abd"] [] ≠ some "abc" :=
  c7_tiebreak_amended "ab" ["abc", "abd"] [] "abc" "abd"
    (by decide) (by decide) (by decide) (by decide) (by decide)

/-- Claim C8: for a phrase that (after normalisation and alias
substitution) is not an exact registry key, the resolver returns a key
only if that key passes the `0.7` similarity cutoff
(`cutoffLe (m, t) ↔ 2*m/t ≥ 7/10`) and no registry key scores strictly
higher; if every key's similarity is below the cutoff it returns
`NotFound` (`none`).  In particular, awake on `"open zzzznotreal"` the
pipeline dispatches only the spoken app-not-found fallback and the state
returns to `Asleep`. -/
theorem c8_resolver_threshold (name : String) (choices : List String)
    (al : List (String × String)) (hn : resolveNorm name al ∉ choices) :
    (∀ k, resolve_name_fuzzy name choices al = some k →
       k ∈ choices ∧
       cutoffLe (ratioS k.data (resolveNorm name al).data) = true ∧
       ∀ x ∈ choices,
         scoreLt (ratioS k.data (resolveNorm name al).data)
                 (ratioS x.data (resolveNorm name al).data) = false) ∧
    ((∀ x ∈ choices, cutoffLe (ratioS x.data (resolveNorm name al).data) = false) →
       resolve_name_fuzzy name choices al = none) ∧
    onFinal ⟨true, false⟩ "open zzzznotreal"
      = (⟨false, false⟩, Effect.openAppNotFound "zzzznotreal") := by
  refine ⟨?_, ?_, by decide⟩
  · intro k h
    rw [resolve_eq_close hn] at h
    simp only [getCloseMatches1] at h
    cases hb : bestPair (qualPairs (resolveNorm name al) choices) with
    | none => rw [hb] at h; cases h
    | some b =>
        rw [hb] at h
        simp only [Option.map_some'] at h
        injection h with hbk
        subst hbk
        obtain ⟨hmem, hq, hsc⟩ := qualPairs_mem_elim (bestPair_mem hb)
        have hck : cutoffLe (ratioS b.2.data (resolveNorm name al).data) = true := by
          simp only [qualifies, Bool.and_eq_true] at hq
          exact hq.2
        refine ⟨hmem, hck, ?_⟩
        intro x hx
        by_cases hqx : qualifies x.data (resolveNorm name al).data = true
        · have hxp := qualPairs_mem_intro hx hqx
          have hnl := bestPair_not_lt (qualPairs_pos hn) hb _ hxp
          simp only [tupleLt, Bool.or_eq_false_iff, Bool.and_eq_false_iff] at hnl
          rw [hsc] at hnl
          exact hnl.1
        · have hcx : cutoffLe (ratioS x.data (resolveNorm name al).data) = false := by
            by_contra hc
            rw [Bool.not_eq_false] at hc
            exact hqx (qualifies_of_cutoff hc)
          have hTk : 0 < (ratioS b.2.data (resolveNorm name al).data).2 := by
            have := qualPairs_pos hn _ (bestPair_mem hb)
            rwa [hsc] at this
          by_contra hlt
          rw [Bool.not_eq_false] at hlt
          simp only [cutoffLe, scoreLt, ratioS, decide_eq_true_eq,
            decide_eq_false_iff_not] at hck hcx hlt hTk
          -- 7·Tk ≤ 20·Mk, Mk·Tx < Mx·Tk, 20·Mx < 7·Tx, Tk > 0 — contradiction
          nlinarith
  · intro hall
    rw [resolve_eq_close hn]
    simp only [getCloseMatches1]
    have hemp : qualPairs (resolveNorm name al) choices = [] := by
      rw [qualPairs]
      have : choices.filter
          (fun x => qualifies x.data (resolveNorm name al).data) = [] := by
        rw [List.filter_eq_nil_iff]
        intro x hx
        simp only [Bool.not_eq_true]
        by_contra hq
        rw [Bool.not_eq_false] at hq
        simp only [qualifies, Bool.and_eq_true] at hq
        have := hall x hx
        rw [hq.2] at this
        cases this
      rw [this]
      rfl
    rw [hemp]
    rfl

/-- Claim C8, witness: `"chrom"` is not an app key; the resolver accepts
`"chrome"` (score `10/11 ≥ 0.7`), which is a registry member passing the
cutoff. -/
theorem c8_resolver_threshold_witness :
    resolve_name_fuzzy "chrom" APP_KEYS [] = some "chrome" ∧
    "chrome" ∈ APP_KEYS ∧
    cutoffLe (ratioS "chrome".data (resolveNorm "chrom" []).data) = true := by
  have h := (c8_resolver_threshold "chrom" APP_KEYS [] (by decide)).1 "chrome" (by decide)
  exact ⟨by decide, h.1, h.2.1⟩

/-- Claim C10: whenever the fuzzy resolver returns a key, that key is an
element of the choices list passed in — it never fabricates a key outside
the registry, whatever the alias table maps to. -/
theorem c10_resolver_membership (name : String) (choices : List String)
    (al : List (String × String)) (k : String)
    (h : resolve_name_fuzzy name choices al = some k) : k ∈ choices := by
  by_cases hn : resolveNorm name al ∈ choices
  · simp only [resolve_name_fuzzy] at h
    rw [if_pos hn] at h
    cases h
    exact hn
  · rw [resolve_eq_close hn] at h
    simp only [getCloseMatches1] at h
    cases hb : bestPair (qualPairs (resolveNorm name al) choices) with
    | none => rw [hb] at h; cases h
    | some b =>
        rw [hb] at h
        simp only [Option.map_some'] at h
        injection h with hbk
        rw [← hbk]
        exact (qualPairs_mem_elim (bestPair_mem hb)).1

/-- Claim C10, witness: the alias `"you" → "youtube"` resolves to a key
that is indeed in the site registry. -/
theorem c10_resolver_membership_witness :
    resolve_name_fuzzy "you" SITE_KEYS SITE_ALIASES = some "youtube" ∧
    "youtube" ∈ SITE_KEYS :=
  ⟨by decide,
   c10_resolver_membership "you" SITE_KEYS SITE_ALIASES "youtube" (by decide)⟩

end Nova

